import Mathlib

/-!
Verification of the `luigi_pipeline.py` data pipeline.

The repository defines five luigi tasks forming a linear chain:
`DownloadDatasetTask ← ExtractDatasetTask ← ProcessDatasetTask ←
TrimDatasetColumnsTask ← CleanupTask`.  We embed the task declarations
(parameters, `requires`, `output`, and the pure parts of each `run` body)
directly from the source.  The orchestration core (dependency resolver,
completion gate, runner) lives in the luigi library, which is not part of
the repository; those parts are modelled from the specification and are
marked `Modelled from the spec:` in their doc comments.

The filesystem is modelled as a list of existing paths (files and
directories alike); `os.path.exists` is membership in that list.
-/

set_option autoImplicit false

namespace LuigiPipeline

/-! ## Definitions: the embedded program and the modelled orchestration core -/

/-- Models `os.path.join(a, b)` for a relative second component on POSIX:
the two components joined by a slash. -/
def joinPath (a b : String) : String := a ++ "/" ++ b

/-- Models `os.path.basename`: the part of the path after the last slash,
computed by scanning the characters left to right. -/
def basename (p : String) : String :=
  String.mk (p.data.foldl (fun acc c => if c = '/' then [] else acc ++ [c]) [])

/-- Fuel-driven scan implementing Python `str.replace` on character lists:
at each position, if the pattern is a prefix, emit the replacement and skip
the pattern, otherwise keep one character and continue.  The fuel is always
instantiated with the length of the scanned list, which suffices because a
step with a non-empty pattern consumes at least one character. -/
def replaceAux (pat repl : List Char) : Nat → List Char → List Char
  | 0, s => s
  | fuel + 1, s =>
    match s with
    | [] => []
    | c :: rest =>
      if pat.isPrefixOf s then repl ++ replaceAux pat repl fuel (s.drop pat.length)
      else c :: replaceAux pat repl fuel rest

/-- Models Python `s.replace(pat, repl)` for a non-empty pattern (every
pattern used by the pipeline is non-empty; for an empty pattern we return
the string unchanged). -/
def pyReplace (s pat repl : String) : String :=
  if pat.data = [] then s
  else String.mk (replaceAux pat.data repl.data s.data.length s.data)

/-- Output filename produced by `ProcessDatasetTask._decompress_file`
(source line 69): `os.path.basename(file_path).replace('.gz', '_processed.txt')`,
applied here to the basename. -/
def processedFileName (name : String) : String :=
  pyReplace name ".gz" "_processed.txt"

/-- Output filename produced by `TrimDatasetColumnsTask._trim_columns`
(source line 103): `basename.replace('_processed.txt', '_trimmed.txt')`. -/
def trimmedFileName (name : String) : String :=
  pyReplace name "_processed.txt" "_trimmed.txt"

/-- Boolean test that `pre` is a prefix of `s`, on the character lists. -/
def strHasPrefix (pre s : String) : Bool := pre.data.isPrefixOf s.data

/-- Boolean test that `suf` is a suffix of `s`, on the character lists;
models Python `str.endswith`. -/
def strHasSuffix (suf s : String) : Bool := suf.data.isSuffixOf s.data

/-- The five task classes of `luigi_pipeline.py`, one constructor per class,
with exactly the `luigi.Parameter` fields each class declares (defaults are
supplied at the use sites, as in the Python constructors). -/
inductive PipelineTask where
  | download (dataset_name download_dir : String)
  | extract (dataset_name download_dir extract_dir : String)
  | process (dataset_name extract_dir processed_dir : String)
  | trim (dataset_name processed_dir trimmed_dir : String)
  | cleanup (dataset_name : String) (cleanup_dirs : List String)
  deriving DecidableEq, Repr

/-- The `requires` method of each task class, embedded literally: positional
arguments that the Python code passes are threaded, every omitted parameter
takes the class default (`'GSE68849'`, `'data_downloads'`, `'data_extracted'`,
`'data_processed'`, `'data_trimmed'`).  Note that only `ExtractDatasetTask`
forwards a location parameter (`download_dir`); the other classes pass the
dataset name alone. -/
def requiresT : PipelineTask → List PipelineTask
  | .download _ _ => []
  | .extract d dd _ => [.download d dd]
  | .process d _ _ => [.extract d "data_downloads" "data_extracted"]
  | .trim d _ _ => [.process d "data_extracted" "data_processed"]
  | .cleanup d _ => [.trim d "data_processed" "data_trimmed"]

/-- The `output` method of each task class: the path of the
`luigi.LocalTarget` it returns. -/
def outputPath : PipelineTask → String
  | .download d dd => joinPath dd (d ++ "_RAW.tar")
  | .extract _ _ ed => ed
  | .process _ _ pd => pd
  | .trim _ _ td => td
  | .cleanup _ _ => "cleanup_status.done"

/-- The `dataset_name` parameter of a task. -/
def datasetName : PipelineTask → String
  | .download d _ => d
  | .extract d _ _ => d
  | .process d _ _ => d
  | .trim d _ _ => d
  | .cleanup d _ => d

/-- The download URL built by `DownloadDatasetTask.run` (source line 20),
piece for piece from the f-string. -/
def downloadUrl (dataset_name : String) : String :=
  "ftp://ftp.ncbi.nlm.nih.gov/geo/series/GSE68nnn/" ++ dataset_name ++
    "/suppl/" ++ dataset_name ++ "_RAW.tar"

/-- Splits a character list at every slash. -/
def splitSlashAux : List Char → List (List Char)
  | [] => [[]]
  | c :: cs =>
    match splitSlashAux cs with
    | [] => [[c]]
    | r :: rs => if c = '/' then [] :: r :: rs else (c :: r) :: rs

/-- Splits a string at every slash, so that the path segments of a URL can
be inspected. -/
def splitSlash (s : String) : List String :=
  (splitSlashAux s.data).map String.mk

/-- Modelled from the spec: the Dependency Resolver of section 4.3 is part
of the luigi library, not of the repository.  Depth-first post-order
traversal of the `requires` graph, fuel-bounded; the pipeline's chain has
depth at most five, so fuel 5 (used by `resolve`) is never exhausted. -/
def postorderFuel : Nat → PipelineTask → List PipelineTask
  | 0, t => [t]
  | n + 1, t => (requiresT t).flatMap (postorderFuel n) ++ [t]

/-- Modelled from the spec: de-duplication by task identity, keeping the
first occurrence, as section 4.3 prescribes for the resolved order. -/
def dedupAcc (seen : List PipelineTask) : List PipelineTask → List PipelineTask
  | [] => []
  | x :: xs => if x ∈ seen then dedupAcc seen xs else x :: dedupAcc (x :: seen) xs

/-- Modelled from the spec: `resolve(target)` of section 4.3 — the
topologically ordered, de-duplicated closure of tasks ending in the
target. -/
def resolve (t : PipelineTask) : List PipelineTask :=
  dedupAcc [] (postorderFuel 5 t)

/-- Models `os.makedirs(p, exist_ok=True)` and also file creation: the path
becomes existing; creating an already existing path is a no-op. -/
def addPath (p : String) (fs : List String) : List String :=
  if p ∈ fs then fs else p :: fs

/-- Pure effect of `shutil.rmtree(p)`: the path `p` and every path strictly
below it stop existing. -/
def removeTreePure (p : String) (fs : List String) : List String :=
  fs.filter (fun q => !(q == p) && !((p ++ "/").data.isPrefixOf q.data))

/-- Models `shutil.rmtree(p)`: removes the tree rooted at `p`, raising
(`Except.error`) when `p` does not exist. -/
def rmtree (p : String) (fs : List String) : Except String (List String) :=
  if p ∈ fs then .ok (removeTreePure p fs)
  else .error ("FileNotFoundError: " ++ p)

/-- The deletion loop of `CleanupTask.run` (source lines 120-123): for each
configured directory, if it exists (`os.path.exists`) remove its tree,
otherwise skip it. -/
def cleanupLoop : List String → List String → Except String (List String)
  | [], fs => .ok fs
  | d :: ds, fs =>
    if d ∈ fs then
      match rmtree d fs with
      | .ok fs1 => cleanupLoop ds fs1
      | .error e => .error e
    else cleanupLoop ds fs

/-- `CleanupTask.run` (source lines 119-126): run the deletion loop, then
write the sentinel file `cleanup_status.done` unconditionally. -/
def cleanupRun (dirs : List String) (fs : List String) : Except String (List String) :=
  (cleanupLoop dirs fs).map (addPath "cleanup_status.done")

/-- An executor gives the effect of one task's `run` body on the filesystem:
the updated filesystem together with `none` on success or `some err` on
failure.  The returned filesystem on failure records the partial side
effects performed before the error was raised. -/
def Executor : Type :=
  PipelineTask → List String → List String × Option String

/-- Modelled from the spec: the Pipeline Runner of sections 4.4-4.5 is part
of the luigi library, not of the repository.  It walks the resolved order;
for each task it consults the Completion Gate (`output().exists()`, here
membership of the output path in the filesystem), skips complete tasks,
executes incomplete ones, and aborts the whole run on the first failure.
Returns the list of executed tasks, the final filesystem, and
`some (task, error)` when the run aborted. -/
def runAux (E : Executor) :
    List PipelineTask → List String →
      List PipelineTask × List String × Option (PipelineTask × String)
  | [], fs => ([], fs, none)
  | t :: ts, fs =>
    if outputPath t ∈ fs then runAux E ts fs
    else
      match E t fs with
      | (fs1, none) =>
        let r := runAux E ts fs1
        (t :: r.1, r.2)
      | (fs1, some e) => ([t], fs1, some (t, e))

/-- Modelled from the spec: one full run against a target task (section 4.5
step 1 resolves the order, step 2 walks it). -/
def runPipeline (E : Executor) (target : PipelineTask) (fs : List String) :
    List PipelineTask × List String × Option (PipelineTask × String) :=
  runAux E (resolve target) fs

/-- Concrete executor embedding the five `run` bodies on the filesystem
model, for an archive holding the single member `sample.txt.gz`.  The flag
`tarOk` selects whether `tarfile` extraction succeeds; when it fails, the
failure happens after `os.makedirs(self.extract_dir)` (source line 38), so
the extract task's output directory exists even though the task failed.
`wget.download` writes the tar under `download_dir` after
`os.makedirs(self.download_dir)` (source lines 19-22); the process and trim
stages create their output directory (source lines 56, 89) and then walk
the previous stage's directory transforming each matching file (source
lines 57-61 and 91-95); the cleanup body is `cleanupRun`. -/
def execStage (tarOk : Bool) : Executor
  | .download d dd, fs =>
    (addPath (joinPath dd (d ++ "_RAW.tar")) (addPath dd fs), none)
  | .extract _ _ ed, fs =>
    let fs1 := addPath ed fs
    if tarOk then (addPath (joinPath ed "sample.txt.gz") fs1, none)
    else (fs1, some "tarfile.ReadError")
  | .process _ ed pd, fs =>
    let fs1 := addPath pd fs
    let members := fs.filter
      (fun p => strHasPrefix (ed ++ "/") p && strHasSuffix ".txt.gz" p)
    (members.foldl
      (fun acc p => addPath (joinPath pd (processedFileName (basename p))) acc)
      fs1, none)
  | .trim _ pd td, fs =>
    let fs1 := addPath td fs
    let members := fs.filter
      (fun p => strHasPrefix (pd ++ "/") p && strHasSuffix "_processed.txt" p)
    (members.foldl
      (fun acc p => addPath (joinPath td (trimmedFileName (basename p))) acc)
      fs1, none)
  | .cleanup _ dirs, fs =>
    match cleanupRun dirs fs with
    | .ok fs1 => (fs1, none)
    | .error e => (fs, some e)

/-- The `columns_to_remove` list of `TrimDatasetColumnsTask.run`
(source line 90). -/
def columns_to_remove : List String :=
  ["Definition", "Ontology_Component", "Ontology_Process", "Ontology_Function"]

/-- Keeps the entries of a list selected by a boolean mask, in order. -/
def applyMask : List Bool → List String → List String
  | true :: bs, x :: xs => x :: applyMask bs xs
  | false :: bs, _ :: xs => applyMask bs xs
  | _, _ => []

/-- Table-level embedding of `TrimDatasetColumnsTask._trim_columns` (source
lines 97-105): a tab-separated table is its header row plus its data rows;
`pd.read_csv` parses it, `df.drop(columns=columns_to_remove, errors='ignore')`
removes every listed column that is present and ignores the missing ones,
and `to_csv(index=False)` writes the remaining columns back in order. -/
def dropTableColumns (remove : List String) (header : List String)
    (rows : List (List String)) : List String × List (List String) :=
  let mask := header.map (fun c => !(remove.contains c))
  (applyMask mask header, rows.map (applyMask mask))

/-- The order `ord` is topological for the `requires` relation: every
dependency of the task at position `j` occurs strictly before position
`j`. -/
def isTopoOrder (ord : List PipelineTask) : Prop :=
  ∀ (j : Nat) (hj : j < ord.length),
    ∀ v ∈ requiresT (ord.get ⟨j, hj⟩), v ∈ ord.take j

/-- The default run target: `CleanupTask` with its default parameters
(`dataset_name='GSE68849'`, `cleanup_dirs=['data_downloads', 'data_extracted']`). -/
def cleanupTarget : PipelineTask :=
  .cleanup "GSE68849" ["data_downloads", "data_extracted"]

/-- A minimal well-behaved executor: every stage succeeds and creates
exactly its declared output. -/
def eSimple : Executor := fun t fs => (outputPath t :: fs, none)

/-- An executor in which the extract stage fails (after registering its
output directory, as the real `run` body does) and every other stage
succeeds. -/
def eFail : Executor := fun t fs =>
  if t = PipelineTask.extract "GSE68849" "data_downloads" "data_extracted"
  then (outputPath t :: fs, some "boom")
  else (outputPath t :: fs, none)

/-! ## Theorems -/

/-- Evaluation of the resolver at a download target. -/
theorem resolve_download (d dd : String) :
    resolve (.download d dd) = [.download d dd] := by
  simp [resolve, postorderFuel, requiresT, dedupAcc]

/-- Evaluation of the resolver at an extract target. -/
theorem resolve_extract (d dd ed : String) :
    resolve (.extract d dd ed) = [.download d dd, .extract d dd ed] := by
  simp [resolve, postorderFuel, requiresT, dedupAcc]

/-- Evaluation of the resolver at a process target: the constructed chain
uses the default locations for the upstream tasks. -/
theorem resolve_process (d ed pd : String) :
    resolve (.process d ed pd) =
      [.download d "data_downloads",
       .extract d "data_downloads" "data_extracted",
       .process d ed pd] := by
  simp [resolve, postorderFuel, requiresT, dedupAcc]

/-- Evaluation of the resolver at a trim target. -/
theorem resolve_trim (d pd td : String) :
    resolve (.trim d pd td) =
      [.download d "data_downloads",
       .extract d "data_downloads" "data_extracted",
       .process d "data_extracted" "data_processed",
       .trim d pd td] := by
  simp [resolve, postorderFuel, requiresT, dedupAcc]

/-- Evaluation of the resolver at a cleanup target: the full five-task
chain. -/
theorem resolve_cleanup (d : String) (dirs : List String) :
    resolve (.cleanup d dirs) =
      [.download d "data_downloads",
       .extract d "data_downloads" "data_extracted",
       .process d "data_extracted" "data_processed",
       .trim d "data_processed" "data_trimmed",
       .cleanup d dirs] := by
  simp [resolve, postorderFuel, requiresT, dedupAcc]

/-- A run in which every task's output already exists executes nothing and
leaves the filesystem unchanged. -/
theorem runAux_skip_all (E : Executor) (order : List PipelineTask) :
    ∀ fs : List String, (∀ t ∈ order, outputPath t ∈ fs) →
      runAux E order fs = ([], fs, none) := by
  induction order with
  | nil => intro fs _; rfl
  | cons t ts ih =>
    intro fs h
    have ht : outputPath t ∈ fs := h t (List.mem_cons_self t ts)
    rw [runAux, if_pos ht]
    exact ih fs (fun u hu => h u (List.mem_cons_of_mem t hu))

/-- Under executors that never remove paths, a task whose output exists at
the start of the run is never executed. -/
theorem runAux_not_mem_of_complete (E : Executor)
    (hmono : ∀ u fs, fs ⊆ (E u fs).1) (t : PipelineTask)
    (order : List PipelineTask) :
    ∀ fs : List String, outputPath t ∈ fs → t ∉ (runAux E order fs).1 := by
  induction order with
  | nil => intro fs _; simp [runAux]
  | cons u ts ih =>
    intro fs hc
    by_cases hu : outputPath u ∈ fs
    · rw [runAux, if_pos hu]; exact ih fs hc
    · rw [runAux, if_neg hu]
      have hne : t ≠ u := by rintro rfl; exact hu hc
      rcases hE : E u fs with ⟨fs1, err⟩
      have hsub : fs ⊆ fs1 := by
        have h0 := hmono u fs; rw [hE] at h0; exact h0
      cases err with
      | none =>
        simp only [hE]
        intro hmem
        rcases List.mem_cons.mp hmem with h1 | h1
        · exact hne h1
        · exact ih fs1 (hsub hc) h1
      | some e =>
        simp only [hE]
        intro hmem
        rcases List.mem_cons.mp hmem with h1 | h1
        · exact hne h1
        · exact absurd h1 (List.not_mem_nil t)

/-- The first task of the order whose output does not exist is executed
(whether or not it then succeeds). -/
theorem runAux_first_incomplete_executed (E : Executor) (t : PipelineTask)
    (f2 : List PipelineTask) (f1 : List PipelineTask) :
    ∀ fs : List String, (∀ u ∈ f1, outputPath u ∈ fs) → outputPath t ∉ fs →
      t ∈ (runAux E (f1 ++ t :: f2) fs).1 := by
  induction f1 with
  | nil =>
    intro fs _ hnc
    rw [List.nil_append, runAux, if_neg hnc]
    rcases hE : E t fs with ⟨fs1, err⟩
    cases err <;> simp [hE]
  | cons u f1' ih =>
    intro fs h hnc
    have hu : outputPath u ∈ fs := h u (List.mem_cons_self u f1')
    rw [List.cons_append, runAux, if_pos hu]
    exact ih fs (fun v hv => h v (List.mem_cons_of_mem u hv)) hnc

/-- The executed tasks form a subsequence of the resolved order. -/
theorem runAux_executed_sublist (E : Executor) (order : List PipelineTask) :
    ∀ fs : List String, (runAux E order fs).1.Sublist order := by
  induction order with
  | nil => intro fs; simp [runAux]
  | cons u ts ih =>
    intro fs
    by_cases hu : outputPath u ∈ fs
    · rw [runAux, if_pos hu]; exact (ih fs).cons u
    · rw [runAux, if_neg hu]
      rcases hE : E u fs with ⟨fs1, err⟩
      cases err with
      | none => simp only [hE]; exact (ih fs1).cons₂ u
      | some e => simp only [hE]; exact (List.nil_sublist ts).cons₂ u

/-- Anatomy of a failed run: the failing task is the last executed one and
occurs in the order with only earlier tasks executed before it; the
filesystem only grew; the reported error is the one the executor returned;
and the outputs of successfully executed tasks persist to the end. -/
theorem runAux_failure (E : Executor)
    (hmono : ∀ u fs, fs ⊆ (E u fs).1)
    (hout : ∀ u fs fs1, E u fs = (fs1, none) → outputPath u ∈ fs1)
    (t : PipelineTask) (e : String) (fsf : List String)
    (order : List PipelineTask) :
    ∀ (fs0 : List String) (ex : List PipelineTask),
      runAux E order fs0 = (ex, fsf, some (t, e)) →
      ex.getLast? = some t ∧
      (∃ f1 f2, order = f1 ++ t :: f2 ∧ ∀ u ∈ ex, u ∈ f1 ∨ u = t) ∧
      fs0 ⊆ fsf ∧
      (∃ fsb, E t fsb = (fsf, some e)) ∧
      (∀ u ∈ ex, u ≠ t → outputPath u ∈ fsf) := by
  induction order with
  | nil => intro fs0 ex h; simp [runAux] at h
  | cons u ts ih =>
    intro fs0 ex h
    by_cases hu : outputPath u ∈ fs0
    · rw [runAux, if_pos hu] at h
      obtain ⟨hA, ⟨f1, f2, hord, hex⟩, hC, hD, hE2⟩ := ih fs0 ex h
      exact ⟨hA, ⟨u :: f1, f2, by rw [hord, List.cons_append],
        fun v hv => (hex v hv).imp (List.mem_cons_of_mem u) id⟩, hC, hD, hE2⟩
    · rw [runAux, if_neg hu] at h
      rcases hEu : E u fs0 with ⟨fs1, err⟩
      rw [hEu] at h
      have hsub : fs0 ⊆ fs1 := by
        have h0 := hmono u fs0; rw [hEu] at h0; exact h0
      cases err with
      | none =>
        dsimp only at h
        rcases hrec : runAux E ts fs1 with ⟨ex', fs', res⟩
        rw [hrec] at h
        injection h with h1 h23
        injection h23 with h2 h3
        subst h1; subst h2; subst h3
        obtain ⟨hA, ⟨f1, f2, hord, hex⟩, hC, hD, hE2⟩ := ih fs1 ex' hrec
        refine ⟨?_, ⟨u :: f1, f2, by rw [hord, List.cons_append], ?_⟩,
          hsub.trans hC, hD, ?_⟩
        · cases ex' with
          | nil => simp at hA
          | cons v l => rw [List.getLast?_cons_cons]; exact hA
        · intro v hv
          rcases List.mem_cons.mp hv with rfl | hv'
          · exact Or.inl (List.mem_cons_self v f1)
          · exact (hex v hv').imp (List.mem_cons_of_mem u) id
        · intro v hv hvt
          rcases List.mem_cons.mp hv with rfl | hv'
          · exact hC (hout v fs0 fs1 hEu)
          · exact hE2 v hv' hvt
      | some e0 =>
        dsimp only at h
        injection h with h1 h23
        injection h23 with h2 h3
        injection h3 with h4
        obtain ⟨h5, h6⟩ := Prod.mk.injEq .. ▸ h4
        subst h1; subst h2; subst h5; subst h6
        refine ⟨rfl, ⟨[], ts, by rw [List.nil_append], ?_⟩, hsub, ⟨fs0, hEu⟩, ?_⟩
        · intro v hv
          exact Or.inr (List.mem_singleton.mp hv)
        · intro v hv hvt
          exact absurd (List.mem_singleton.mp hv) hvt

/-- Masking a list by a predicate over itself is filtering. -/
theorem applyMask_map_filter (f : String → Bool) (l : List String) :
    applyMask (l.map f) l = l.filter f := by
  induction l with
  | nil => rfl
  | cons x xs ih =>
    cases hfx : f x <;> simp [applyMask, List.filter, hfx, ih]

/-- A masked list is a subsequence of the original list. -/
theorem applyMask_sublist (mask : List Bool) :
    ∀ l : List String, (applyMask mask l).Sublist l := by
  induction mask with
  | nil => intro l; cases l <;> simp [applyMask]
  | cons b bs ih =>
    intro l
    cases l with
    | nil => simp [applyMask]
    | cons x xs =>
      cases b with
      | true => exact (ih xs).cons₂ x
      | false => exact (ih xs).cons x

/-- Masking a row by a predicate on the header equals zipping the header to
the row, filtering by the predicate on the header entry, and projecting. -/
theorem applyMask_zip_filter (f : String → Bool) (hd : List String) :
    ∀ r : List String,
      applyMask (hd.map f) r =
        ((hd.zip r).filter (fun p => f p.1)).map Prod.snd := by
  induction hd with
  | nil => intro r; cases r <;> rfl
  | cons x hd' ih =>
    intro r
    cases r with
    | nil => cases hfx : f x <;> simp [applyMask]
    | cons y r' =>
      cases hfx : f x <;> simp [applyMask, hfx, List.filter, List.zip, ih r']

/-- Masking by an everywhere-true predicate is the identity on rows of the
header's length. -/
theorem applyMask_all_true (f : String → Bool) (hd : List String) :
    ∀ r : List String, (∀ c ∈ hd, f c = true) → r.length = hd.length →
      applyMask (hd.map f) r = r := by
  induction hd with
  | nil =>
    intro r _ hlen
    rw [List.length_eq_zero.mp hlen]; rfl
  | cons x hd' ih =>
    intro r hf hlen
    cases r with
    | nil => simp at hlen
    | cons y r' =>
      have hfx : f x = true := hf x (List.mem_cons_self x hd')
      simp only [List.map_cons, hfx, applyMask]
      rw [ih r' (fun c hc => hf c (List.mem_cons_of_mem x hc))
        (by simpa using hlen)]

/-- An element at a position below `j` belongs to the `j`-prefix. -/
theorem mem_take_of_get (l : List PipelineTask) (j k : Nat)
    (hk : k < l.length) (hjk : k < j) : l.get ⟨k, hk⟩ ∈ l.take j := by
  have h1 : k < (l.take j).length := by
    simp [List.length_take]; omega
  have h2 : (l.take j).get ⟨k, h1⟩ = l.get ⟨k, hk⟩ := by
    simp [List.getElem_take]
  rw [← h2]
  exact List.get_mem _ _ _

/-- A list whose head has no dependency and in which each element's
dependency list is exactly its predecessor is a topological order. -/
theorem isTopoOrder_of_chain (l : List PipelineTask)
    (h0 : ∀ u, l.head? = some u → requiresT u = [])
    (hch : l.Chain' (fun a b => requiresT b = [a])) :
    isTopoOrder l := by
  intro j hj v hv
  cases j with
  | zero =>
    have hhead : l.head? = some (l.get ⟨0, hj⟩) := by
      cases l with
      | nil => simp at hj
      | cons a as => rfl
    rw [h0 _ hhead] at hv
    exact absurd hv (List.not_mem_nil v)
  | succ k =>
    have hk1 : k < l.length - 1 := by omega
    have hreq := List.chain'_iff_get.mp hch k hk1
    rw [hreq] at hv
    have hv' := List.mem_singleton.mp hv
    subst hv'
    exact mem_take_of_get l (k + 1) k (by omega) (by omega)

/-- The resolved order of every target is topological. -/
theorem resolve_isTopo (t : PipelineTask) : isTopoOrder (resolve t) := by
  cases t with
  | download d dd =>
    rw [resolve_download]
    refine isTopoOrder_of_chain _ ?_ ?_
    · intro u hu; simp at hu; subst hu; rfl
    · simp [List.chain'_cons, requiresT]
  | extract d dd ed =>
    rw [resolve_extract]
    refine isTopoOrder_of_chain _ ?_ ?_
    · intro u hu; simp at hu; subst hu; rfl
    · simp [List.chain'_cons, requiresT]
  | process d ed pd =>
    rw [resolve_process]
    refine isTopoOrder_of_chain _ ?_ ?_
    · intro u hu; simp at hu; subst hu; rfl
    · simp [List.chain'_cons, requiresT]
  | trim d pd td =>
    rw [resolve_trim]
    refine isTopoOrder_of_chain _ ?_ ?_
    · intro u hu; simp at hu; subst hu; rfl
    · simp [List.chain'_cons, requiresT]
  | cleanup d dirs =>
    rw [resolve_cleanup]
    refine isTopoOrder_of_chain _ ?_ ?_
    · intro u hu; simp at hu; subst hu; rfl
    · simp [List.chain'_cons, requiresT]

/-- The resolved order of every target has no duplicate task identity. -/
theorem resolve_nodup (t : PipelineTask) : (resolve t).Nodup := by
  cases t with
  | download d dd => rw [resolve_download]; simp
  | extract d dd ed => rw [resolve_extract]; simp
  | process d ed pd => rw [resolve_process]; simp
  | trim d pd td => rw [resolve_trim]; simp
  | cleanup d dirs => rw [resolve_cleanup]; simp

/-- The resolved order of every target ends with the target. -/
theorem resolve_last (t : PipelineTask) : (resolve t).getLast? = some t := by
  cases t with
  | download d dd => rw [resolve_download]; rfl
  | extract d dd ed => rw [resolve_extract]; rfl
  | process d ed pd => rw [resolve_process]; rfl
  | trim d pd td => rw [resolve_trim]; rfl
  | cleanup d dirs => rw [resolve_cleanup]; rfl

/-- A created path exists afterwards. -/
theorem mem_addPath_self (p : String) (l : List String) : p ∈ addPath p l := by
  unfold addPath
  split
  · assumption
  · exact List.mem_cons_self p l

/-- The guarded deletion loop never raises: it equals the pure fold that
removes each existing configured directory and skips the absent ones. -/
theorem cleanupLoop_ok (dirs : List String) :
    ∀ fs : List String,
      cleanupLoop dirs fs =
        .ok (List.foldl (fun a d => if d ∈ a then removeTreePure d a else a) fs dirs) := by
  induction dirs with
  | nil => intro fs; rfl
  | cons d ds ih =>
    intro fs
    by_cases hd : d ∈ fs
    · rw [cleanupLoop, if_pos hd]
      rw [rmtree, if_pos hd]
      rw [List.foldl_cons, if_pos hd]
      exact ih (removeTreePure d fs)
    · rw [cleanupLoop, if_neg hd]
      rw [List.foldl_cons, if_neg hd]
      exact ih fs

/-- The minimal executor only adds paths. -/
theorem eSimple_mono (u : PipelineTask) (fs : List String) : fs ⊆ (eSimple u fs).1 :=
  List.subset_cons_self _ _

/-- The failing executor only adds paths. -/
theorem eFail_mono (u : PipelineTask) (fs : List String) : fs ⊆ (eFail u fs).1 := by
  unfold eFail
  split <;> exact List.subset_cons_self _ _

/-- On success the failing executor created its output. -/
theorem eFail_out (u : PipelineTask) (fs fs1 : List String)
    (h : eFail u fs = (fs1, none)) : outputPath u ∈ fs1 := by
  unfold eFail at h
  split at h
  · injection h with h1 h2
    exact absurd h2 (by simp)
  · injection h with h1 h2
    rw [← h1]
    exact List.mem_cons_self _ _

/-- Claim C1, counterexample: for input `foo.txt.gz` the normalize stage
writes `foo.txt_processed.txt`, not `foo_processed.txt` as the claim
states, because `str.replace('.gz', '_processed.txt')` only substitutes the
`.gz` occurrence and keeps the `.txt` before it; the project stage output
likewise keeps the inner `.txt`. -/
theorem filename_transform_counterexample :
    processedFileName "foo.txt.gz" = "foo.txt_processed.txt" ∧
    processedFileName "foo.txt.gz" ≠ "foo_processed.txt" ∧
    trimmedFileName (processedFileName "foo.txt.gz") ≠ "foo_trimmed.txt" := by
  decide

/-- Claim C1 (amended): for an input file named `foo.txt.gz` the normalize
stage writes its output under the name `foo.txt_processed.txt` (the `.gz`
suffix replaced by `_processed.txt`), that name is picked up by the project
stage's `_processed.txt` filter, and the project stage subsequently writes
its output under `foo.txt_trimmed.txt`. -/
theorem filename_transform_amended :
    processedFileName "foo.txt.gz" = "foo.txt_processed.txt" ∧
    strHasSuffix "_processed.txt" (processedFileName "foo.txt.gz") = true ∧
    trimmedFileName (processedFileName "foo.txt.gz") = "foo.txt_trimmed.txt" := by
  decide

/-- Claim C2, counterexample: run the default pipeline with an executor
whose extract stage fails after `os.makedirs(self.extract_dir)` (exactly
as `ExtractDatasetTask.run` does, source lines 37-41).  The first run fails
at the extract stage after the download stage succeeded; a second run with
the cause fixed does not re-execute the failed extract stage: its output
directory exists, so the completion gate skips it. -/
theorem failed_stage_skipped_on_rerun :
    (runAux (execStage false) (resolve cleanupTarget) []).2.2 =
      some (.extract "GSE68849" "data_downloads" "data_extracted",
        "tarfile.ReadError") ∧
    (runAux (execStage false) (resolve cleanupTarget) []).1 =
      [.download "GSE68849" "data_downloads",
       .extract "GSE68849" "data_downloads" "data_extracted"] ∧
    PipelineTask.extract "GSE68849" "data_downloads" "data_extracted" ∉
      (runAux (execStage true) (resolve cleanupTarget)
        ((runAux (execStage false) (resolve cleanupTarget) []).2.1)).1 := by
  decide

/-- Claim C2 (amended): provided no stage deletes existing paths, a re-run
never executes a task whose output already exists — in particular stages
1..k-1, whose outputs were produced by the earlier run, are not re-run —
and the re-run resumes at the first task of the order whose output does
not exist.  The failed stage k itself is re-executed only in this
incomplete-output case; a stage that created its output directory before
failing is skipped. -/
theorem rerun_resumes_at_first_incomplete (E : Executor)
    (hmono : ∀ u fs, fs ⊆ (E u fs).1)
    (order : List PipelineTask) (fs0 : List String) :
    (∀ t ∈ order, outputPath t ∈ fs0 → t ∉ (runAux E order fs0).1) ∧
    (∀ f1 t f2, order = f1 ++ t :: f2 →
      (∀ u ∈ f1, outputPath u ∈ fs0) → outputPath t ∉ fs0 →
      t ∈ (runAux E order fs0).1) := by
  constructor
  · intro t _ hc
    exact runAux_not_mem_of_complete E hmono t order fs0 hc
  · intro f1 t f2 hord h1 hnc
    rw [hord]
    exact runAux_first_incomplete_executed E t f2 f1 fs0 h1 hnc

/-- Witness for C2's amended theorem: when the download output already
exists and the extract output does not, a run skips the download task and
executes the extract task. -/
theorem rerun_resumes_witness :
    PipelineTask.download "GSE68849" "data_downloads" ∉
      (runAux eSimple (resolve cleanupTarget)
        ["data_downloads", "data_downloads/GSE68849_RAW.tar"]).1 ∧
    PipelineTask.extract "GSE68849" "data_downloads" "data_extracted" ∈
      (runAux eSimple (resolve cleanupTarget)
        ["data_downloads", "data_downloads/GSE68849_RAW.tar"]).1 := by
  have h := rerun_resumes_at_first_incomplete eSimple eSimple_mono
      (resolve cleanupTarget) ["data_downloads", "data_downloads/GSE68849_RAW.tar"]
  constructor
  · exact h.1 _ (by decide) (by decide)
  · exact h.2 [PipelineTask.download "GSE68849" "data_downloads"]
      (PipelineTask.extract "GSE68849" "data_downloads" "data_extracted")
      [PipelineTask.process "GSE68849" "data_extracted" "data_processed",
       PipelineTask.trim "GSE68849" "data_processed" "data_trimmed",
       cleanupTarget] (by decide) (by decide) (by decide)

/-- Claim C3, counterexample: `ProcessDatasetTask.requires` passes only the
dataset name, so a run target with the override `extract_dir='custom_extract'`
constructs its upstream `ExtractDatasetTask` with the default
`extract_dir='data_extracted'` — the override is not received by the
dependency. -/
theorem location_override_not_threaded :
    requiresT (.process "GSE68849" "custom_extract" "data_processed") =
      [.extract "GSE68849" "data_downloads" "data_extracted"] ∧
    ("data_extracted" : String) ≠ "custom_extract" := by
  decide

/-- Claim C3 (amended): the dataset identity is threaded unchanged through
the dependency chain — every task in the resolved closure carries the same
`dataset_name` as the target — but stage-specific location overrides are
not forwarded to constructed dependencies (only `ExtractDatasetTask`
forwards `download_dir`); dependencies are built with default locations. -/
theorem dataset_identity_threaded (t : PipelineTask) :
    (∀ u ∈ requiresT t, datasetName u = datasetName t) ∧
    (∀ u ∈ resolve t, datasetName u = datasetName t) := by
  cases t with
  | download d dd =>
    exact ⟨by simp [requiresT], by rw [resolve_download]; simp [datasetName]⟩
  | extract d dd ed =>
    exact ⟨by simp [requiresT, datasetName],
      by rw [resolve_extract]; simp [datasetName]⟩
  | process d ed pd =>
    exact ⟨by simp [requiresT, datasetName],
      by rw [resolve_process]; simp [datasetName]⟩
  | trim d pd td =>
    exact ⟨by simp [requiresT, datasetName],
      by rw [resolve_trim]; simp [datasetName]⟩
  | cleanup d dirs =>
    exact ⟨by simp [requiresT, datasetName],
      by rw [resolve_cleanup]; simp [datasetName]⟩

/-- Witness for C3's amended theorem: the download task in the closure of
the default cleanup target carries the target's dataset name. -/
theorem dataset_identity_threaded_witness :
    datasetName (.download "GSE68849" "data_downloads") = datasetName cleanupTarget :=
  (dataset_identity_threaded cleanupTarget).2 _ (by decide)

/-- Claim C4, counterexample: the cleanup sentinel path is the constant
`cleanup_status.done` for every dataset, so two runs over different
datasets share one sentinel and its existence cannot identify completion
per dataset identity. -/
theorem sentinel_not_per_dataset :
    outputPath (.cleanup "GSE68849" ["data_downloads", "data_extracted"]) =
      outputPath (.cleanup "GSE00001" []) ∧
    ("GSE68849" : String) ≠ "GSE00001" := by
  decide

/-- Claim C4 (amended): the terminal cleanup stage writes a single sentinel
file which is its own output Artifact Reference, and that sentinel is the
global path `cleanup_status.done`, independent of the dataset of the run. -/
theorem cleanup_sentinel_output (d : String) (dirs : List String) (fs : List String) :
    outputPath (.cleanup d dirs) = "cleanup_status.done" ∧
    ∃ fs1, cleanupRun dirs fs = .ok fs1 ∧ outputPath (.cleanup d dirs) ∈ fs1 := by
  refine ⟨rfl, ?_⟩
  have h := cleanupLoop_ok dirs fs
  exact ⟨_, by unfold cleanupRun; rw [h]; rfl, mem_addPath_self _ _⟩

/-- Claim C5: dropping the four designated columns keeps exactly the
non-designated columns of the header in order, preserves the number and
the order of the rows (each output row is the positional projection of the
corresponding input row to the kept columns, hence a sublist of it), and is
the identity when none of the four designated columns occurs in the
header. -/
theorem trim_columns_projection (header : List String) (rows : List (List String))
    (hrows : ∀ r ∈ rows, r.length = header.length) :
    (dropTableColumns columns_to_remove header rows).1 =
      header.filter (fun c => !(columns_to_remove.contains c)) ∧
    (dropTableColumns columns_to_remove header rows).2.length = rows.length ∧
    (dropTableColumns columns_to_remove header rows).2 =
      rows.map (fun r => ((header.zip r).filter
        (fun p => !(columns_to_remove.contains p.1))).map Prod.snd) ∧
    List.Forall₂ (fun a b => List.Sublist a b)
      (dropTableColumns columns_to_remove header rows).2 rows ∧
    ((∀ c ∈ header, c ∉ columns_to_remove) →
      dropTableColumns columns_to_remove header rows = (header, rows)) := by
  refine ⟨applyMask_map_filter _ header, by simp [dropTableColumns], ?_, ?_, ?_⟩
  · show rows.map (applyMask (header.map _)) = _
    have hfun : (fun r => applyMask
        (header.map (fun c => !(columns_to_remove.contains c))) r) =
        (fun r => ((header.zip r).filter
          (fun p => !(columns_to_remove.contains p.1))).map Prod.snd) :=
      funext (applyMask_zip_filter _ header)
    rw [show (applyMask (header.map (fun c => !(columns_to_remove.contains c)))) =
      (fun r => applyMask (header.map (fun c => !(columns_to_remove.contains c))) r)
      from rfl, hfun]
  · show List.Forall₂ _ (rows.map (applyMask (header.map _))) rows
    induction rows with
    | nil => exact List.Forall₂.nil
    | cons r rs ih =>
      exact List.Forall₂.cons (applyMask_sublist _ r)
        (ih (fun x hx => hrows x (List.mem_cons_of_mem r hx)))
  · intro hnone
    have hf : ∀ c ∈ header, (!(columns_to_remove.contains c)) = true := by
      intro c hc
      simpa using hnone c hc
    unfold dropTableColumns
    rw [Prod.mk.injEq]
    constructor
    · exact applyMask_all_true _ header header hf rfl
    · have : ∀ r ∈ rows, applyMask
          (header.map (fun c => !(columns_to_remove.contains c))) r = r :=
        fun r hr => applyMask_all_true _ header r hf (hrows r hr)
      calc rows.map (applyMask (header.map (fun c => !(columns_to_remove.contains c))))
          = rows.map id := List.map_congr_left this
        _ = rows := List.map_id rows

/-- Witness for C5: a three-column table containing the `Definition`
column, with two rows. -/
theorem trim_columns_projection_witness :
    (dropTableColumns columns_to_remove ["ID_REF", "Definition", "VALUE"]
      [["1", "a", "0.5"], ["2", "b", "0.7"]]).1 = ["ID_REF", "VALUE"] ∧
    (dropTableColumns columns_to_remove ["ID_REF", "Definition", "VALUE"]
      [["1", "a", "0.5"], ["2", "b", "0.7"]]).2 = [["1", "0.5"], ["2", "0.7"]] := by
  have h := trim_columns_projection ["ID_REF", "Definition", "VALUE"]
      [["1", "a", "0.5"], ["2", "b", "0.7"]] (by decide)
  exact ⟨h.1.trans (by decide), (h.2.2.1).trans (by decide)⟩

/-- Claim C6, counterexample: a first full run of the default pipeline
succeeds, but — because the cleanup stage deleted the acquire and unpack
outputs — a second run with the same parameters re-executes the download
stage (it executes more than zero stages) and ends with a different
artifact state than the first run left behind. -/
theorem second_run_reexecutes_after_cleanup :
    (runAux (execStage true) (resolve cleanupTarget) []).2.2 = none ∧
    PipelineTask.download "GSE68849" "data_downloads" ∈
      (runAux (execStage true) (resolve cleanupTarget)
        ((runAux (execStage true) (resolve cleanupTarget) []).2.1)).1 ∧
    (runAux (execStage true) (resolve cleanupTarget)
        ((runAux (execStage true) (resolve cleanupTarget) []).2.1)).2.1 ≠
      (runAux (execStage true) (resolve cleanupTarget) []).2.1 := by
  decide

/-- Claim C6 (amended): a run in which every task of the resolved order
already has its output existing executes zero stages and leaves the
artifacts untouched; this is the situation after a first successful run
exactly when no stage deleted an upstream output, which the default
pipeline's cleanup stage violates. -/
theorem second_run_skips_all_existing (E : Executor) (order : List PipelineTask)
    (fs : List String) (h : ∀ t ∈ order, outputPath t ∈ fs) :
    runAux E order fs = ([], fs, none) :=
  runAux_skip_all E order fs h

/-- Witness for C6's amended theorem: with every stage output present, the
run of the default order executes nothing and changes nothing. -/
theorem second_run_skips_witness :
    runAux eSimple (resolve cleanupTarget)
        ["data_downloads/GSE68849_RAW.tar", "data_extracted", "data_processed",
         "data_trimmed", "cleanup_status.done"] =
      ([], ["data_downloads/GSE68849_RAW.tar", "data_extracted", "data_processed",
         "data_trimmed", "cleanup_status.done"], none) :=
  second_run_skips_all_existing eSimple (resolve cleanupTarget) _ (by decide)

/-- Claim C7: when a task's execute fails, the runner aborts immediately:
the failing task is the last executed one, every executed task lies at or
before the failing task's position, no task after it in a duplicate-free
order executes, the result carries exactly the failing task with the
error its executor returned, and — as long as stage bodies only add paths —
the initial artifacts and the outputs of all successfully executed
upstream tasks are still present in the final state. -/
theorem run_failure_aborts (E : Executor) (order : List PipelineTask)
    (fs0 fsf : List String) (ex : List PipelineTask) (t : PipelineTask) (e : String)
    (hmono : ∀ u fs, fs ⊆ (E u fs).1)
    (hout : ∀ u fs fs1, E u fs = (fs1, none) → outputPath u ∈ fs1)
    (h : runAux E order fs0 = (ex, fsf, some (t, e))) :
    ex.getLast? = some t ∧
    (∃ f1 f2, order = f1 ++ t :: f2 ∧ (∀ u ∈ ex, u ∈ f1 ∨ u = t) ∧
      (order.Nodup → ∀ v ∈ f2, v ∉ ex)) ∧
    fs0 ⊆ fsf ∧
    (∃ fsb, E t fsb = (fsf, some e)) ∧
    (∀ u ∈ ex, u ≠ t → outputPath u ∈ fsf) := by
  obtain ⟨hA, ⟨f1, f2, hord, hex⟩, hC, hD, hE2⟩ :=
    runAux_failure E hmono hout t e fsf order fs0 ex h
  refine ⟨hA, ⟨f1, f2, hord, hex, ?_⟩, hC, hD, hE2⟩
  intro hnd v hv2 hvex
  rcases hex v hvex with hvf1 | rfl
  · rw [hord, List.nodup_append] at hnd
    exact hnd.2.2 hvf1 (List.mem_cons_of_mem t hv2)
  · rw [hord, List.nodup_append, List.nodup_cons] at hnd
    exact hnd.2.1.1 hv2

/-- Witness for C7: with the executor whose extract stage fails, the run of
the default order stops with the extract task last, and the download output
produced before the failure is still present. -/
theorem run_failure_aborts_witness :
    ([PipelineTask.download "GSE68849" "data_downloads",
      PipelineTask.extract "GSE68849" "data_downloads" "data_extracted"]
        : List PipelineTask).getLast? =
      some (PipelineTask.extract "GSE68849" "data_downloads" "data_extracted") ∧
    outputPath (PipelineTask.download "GSE68849" "data_downloads") ∈
      ["data_extracted", "data_downloads/GSE68849_RAW.tar"] := by
  have h := run_failure_aborts eFail (resolve cleanupTarget) []
      ["data_extracted", "data_downloads/GSE68849_RAW.tar"]
      [PipelineTask.download "GSE68849" "data_downloads",
       PipelineTask.extract "GSE68849" "data_downloads" "data_extracted"]
      (PipelineTask.extract "GSE68849" "data_downloads" "data_extracted") "boom"
      eFail_mono eFail_out (by decide)
  exact ⟨h.1, h.2.2.2.2 _ (by decide) (by decide)⟩

/-- Claim C8: for every run target the resolved order is topological —
every task appears strictly after all of its declared dependencies — has
no duplicate task identity, ends with the target, and the list of tasks any
run executes is a duplicate-free subsequence of it, so each task executes
at most once per run. -/
theorem resolve_order_correct (t : PipelineTask) :
    isTopoOrder (resolve t) ∧
    (resolve t).Nodup ∧
    (resolve t).getLast? = some t ∧
    ∀ (E : Executor) (fs : List String),
      ((runAux E (resolve t) fs).1).Sublist (resolve t) ∧
      ((runAux E (resolve t) fs).1).Nodup := by
  refine ⟨resolve_isTopo t, resolve_nodup t, resolve_last t, ?_⟩
  intro E fs
  have hs := runAux_executed_sublist E (resolve t) fs
  exact ⟨hs, List.Nodup.sublist hs (resolve_nodup t)⟩

/-- Witness for C8 at the default run target. -/
theorem resolve_order_correct_witness :
    (resolve cleanupTarget).Nodup ∧
    (resolve cleanupTarget).getLast? = some cleanupTarget :=
  ⟨(resolve_order_correct cleanupTarget).2.1,
   (resolve_order_correct cleanupTarget).2.2.1⟩

/-- Claim C9: the download URL places every dataset under the fixed series
directory `GSE68nnn` — the sixth slash-separated segment is `GSE68nnn` no
matter the dataset name, as the concrete segment lists for `GSE68849` and
for the out-of-series `GSE12345` show. -/
theorem download_url_series_fixed :
    (∀ d : String, downloadUrl d =
      "ftp://ftp.ncbi.nlm.nih.gov/geo/series/GSE68nnn/" ++ d ++
        "/suppl/" ++ d ++ "_RAW.tar") ∧
    (splitSlash (downloadUrl "GSE68849")).get? 5 = some "GSE68nnn" ∧
    (splitSlash (downloadUrl "GSE12345")).get? 5 = some "GSE68nnn" ∧
    (splitSlash (downloadUrl "GSE12345")).get? 6 = some "GSE12345" :=
  ⟨fun _ => rfl, by decide, by decide, by decide⟩

/-- Claim C10: the cleanup stage never fails on an absent directory: it
returns successfully on every filesystem, removing exactly the configured
directories that exist (skipping the others), and the resulting state
contains the completion sentinel written unconditionally after the
deletion loop. -/
theorem cleanup_never_fails (dirs : List String) (fs : List String) :
    cleanupRun dirs fs =
      .ok (addPath "cleanup_status.done"
        (List.foldl (fun a d => if d ∈ a then removeTreePure d a else a) fs dirs)) := by
  unfold cleanupRun
  rw [cleanupLoop_ok]
  rfl

end LuigiPipeline
